import Mathlib

/-
Verification of the AutoUnpack core (src/autounpack.py) against its
natural-language specification.

The development shallowly embeds the Python code:
  - Python strings are modelled as Lean String (a wrapper around List Char);
    string primitives such as startswith, strip, split, lower and the
    pathlib name/stem/suffix accessors are re-implemented structurally so
    that every definition is executable and kernel-reducible.
  - PART_REGEX (line 34) is an anchored pattern
    (.+?)\.(part\d{1,3}|[rs]\d{2}|z\d{2}|\d{3})$  with IGNORECASE.
    Since none of the token alternatives can contain a dot, the pattern
    matches a name exactly when the portion after the LAST dot is one of
    the tokens and the portion before it is nonempty; group(1) is the
    portion before that dot.  partMatch implements this characterisation.
  - The file system is modelled as a Boolean existence predicate on path
    strings; extraction is modelled as a pure function from a tool outcome
    to the emitted effect trace and history record.
  - Paths are treated as already absolute and normalised, so
    Path.resolve() is the identity in the model.
-/

/- ===== character and string helpers ===== -/

/-- hasLead pat s is true when pat is a leading segment of s.
Models Python s.startswith(pat) at the character-list level. -/
def hasLead : List Char → List Char → Bool
  | [], _ => true
  | _ :: _, [] => false
  | c :: cs, d :: ds => c == d && hasLead cs ds

/-- Models Python s.startswith(t). -/
def strStartsWith (s t : String) : Bool := hasLead t.data s.data

/-- Code-point lexicographic strict order on character lists; this is
exactly how Python compares str values (used by sorted). -/
def charsLt : List Char → List Char → Bool
  | _, [] => false
  | [], _ :: _ => true
  | a :: as, b :: bs => if a < b then true else if b < a then false else charsLt as bs

/-- Split a character list at every occurrence of c, as Python
str.split(sep) does for a one-character separator; used to decompose a
path string into its parts list. -/
def splitAllC (c : Char) : List Char → List (List Char)
  | [] => [[]]
  | d :: ds =>
    if d == c then [] :: splitAllC c ds
    else
      match splitAllC c ds with
      | [] => [[d]]
      | a :: rest => (d :: a) :: rest

/-- Lexicographic order on parts lists: elementwise by charsLt, a strict
leading sublist ordered first; this is Python list/tuple comparison. -/
def partsLt : List (List Char) → List (List Char) → Bool
  | _, [] => false
  | [], _ :: _ => true
  | a :: as, b :: bs => if charsLt a b then true else if charsLt b a then false else partsLt as bs

/-- Python strict < on pathlib Path values: paths are ordered by the
case-normalized parts list (the path string split at the separator), not
by the raw path string.  Case normalization is the identity for the
POSIX-style separators used throughout this model. -/
def strPathLt (a b : String) : Bool :=
  partsLt (splitAllC '/' a.data) (splitAllC '/' b.data)

/-- Split a character list at the last occurrence of c: returns the
segment before and the segment after that occurrence (neither contains
the occurrence itself); none when c does not occur. -/
def splitAtLastC (c : Char) : List Char → Option (List Char × List Char)
  | [] => none
  | d :: ds =>
    match splitAtLastC c ds with
    | some (p, t) => some (d :: p, t)
    | none => if d == c then some ([], ds) else none

/-- The final path component (the part after the last slash), as in
pathlib Path.name for POSIX-style paths. -/
def fileNameOf (cs : List Char) : List Char :=
  match splitAtLastC '/' cs with
  | some (_, t) => t
  | none => cs

/-- pathlib stem of a file name: the name without its final suffix.
pathlib only recognises a suffix when the last dot is neither the first
nor the last character of the name. -/
def pyStemL (n : List Char) : List Char :=
  match splitAtLastC '.' n with
  | some (p, t) => if p.isEmpty || t.isEmpty then n else p
  | none => n

/-- pathlib suffix of a file name, including the leading dot; empty when
the name has no recognised suffix. -/
def pySuffixL (n : List Char) : List Char :=
  match splitAtLastC '.' n with
  | some (p, t) => if p.isEmpty || t.isEmpty then [] else '.' :: t
  | none => []

/-- ASCII lower-casing of a character list; models str.lower on the
ASCII file names handled here. -/
def lowerChars (cs : List Char) : List Char := cs.map Char.toLower

/-- All characters are ASCII digits. -/
def allDigits (cs : List Char) : Bool := cs.all Char.isDigit

/-- The characters of the literal ".rar". -/
def rarChars : List Char := ['.', 'r', 'a', 'r']

/-- Does t match one of the PART_REGEX token alternatives
(part with 1 to 3 digits, r or s or z with 2 digits, or a bare 3 digit
group), case-insensitively? -/
def isPartTok (t : List Char) : Bool :=
  (match lowerChars t with
   | 'p' :: 'a' :: 'r' :: 't' :: ds => !ds.isEmpty && decide (ds.length ≤ 3) && allDigits ds
   | _ => false) ||
  (match lowerChars t with
   | c :: ds => (c == 'r' || c == 's' || c == 'z') && decide (ds.length = 2) && allDigits ds
   | [] => false) ||
  (decide ((lowerChars t).length = 3) && allDigits (lowerChars t))

/-- PART_REGEX.match applied to a whole name: some prefixSegment when the
name decomposes as prefixSegment ++ dot ++ token with a nonempty
prefixSegment, none otherwise; the returned value is group(1). -/
def partMatch (n : List Char) : Option (List Char) :=
  match splitAtLastC '.' n with
  | some (p, t) => if !p.isEmpty && isPartTok t then some p else none
  | none => none

/- ===== ArchiveSetGrouper: base-name derivation, grouping, primary part
   (Unpacker.unpack_archives, lines 64-87) ===== -/

/-- Base-name derivation from lines 64-74: try PART_REGEX on the stem;
if that fails and the lower-cased suffix is ".rar", try PART_REGEX on the
full name; fall back to the stem. -/
def pyBaseName (path : String) : String :=
  match partMatch (pyStemL (fileNameOf path.data)) with
  | some b => String.mk b
  | none =>
    if lowerChars (pySuffixL (fileNameOf path.data)) == rarChars then
      match partMatch (fileNameOf path.data) with
      | some b => String.mk b
      | none => String.mk (pyStemL (fileNameOf path.data))
    else String.mk (pyStemL (fileNameOf path.data))

/-- Modelled from the spec wording of the base-name rule: the pattern is
applied to the name-without-final-suffix first; otherwise, when the
extension is exactly ".rar", it is re-applied to the full name; otherwise
the stem is used.  Kept separate from pyBaseName (the source embedding)
so the two can be compared. -/
def specBaseName (path : String) : String :=
  match partMatch (pyStemL (fileNameOf path.data)) with
  | some b => String.mk b
  | none =>
    if pySuffixL (fileNameOf path.data) == rarChars then
      match partMatch (fileNameOf path.data) with
      | some b => String.mk b
      | none => String.mk (pyStemL (fileNameOf path.data))
    else String.mk (pyStemL (fileNameOf path.data))

/-- Insertion into an association list of groups, used to model the
defaultdict(list) at lines 64-75: appending to the entry of an existing
key keeps its position, a new key is appended at the end. -/
def insertGrouped (key f : String) : List (String × List String) → List (String × List String)
  | [] => [(key, [f])]
  | (k, g) :: rest =>
    if k == key then (k, g ++ [f]) :: rest else (k, g) :: insertGrouped key f rest

/-- archive_sets construction of lines 64-75: fold the candidate list in
encounter order, grouping by derived base name. -/
def groupByBase (files : List String) : List (String × List String) :=
  files.foldl (fun acc f => insertGrouped (pyBaseName f) f acc) []

/-- suffix.lower() == ".rar" test from lines 69 and 80. -/
def isRarB (f : String) : Bool := lowerChars (pySuffixL (fileNameOf f.data)) == rarChars

/-- Left fold computing the smallest element under the pathlib Path
order (parts-list comparison), keeping the earlier element on ties;
sorted(file_list)[0] over Path values equals this. -/
def lexMinGo (cur : String) : List String → String
  | [] => cur
  | f :: rest => lexMinGo (if strPathLt f cur then f else cur) rest

/-- Primary-part selection of lines 80-84: the first ".rar" member in
encounter order when one exists, otherwise the lexicographically smallest
path of the group. -/
def primaryFile (files : List String) : Option String :=
  match files.filter isRarB with
  | f :: _ => some f
  | [] =>
    match files with
    | [] => none
    | f :: rest => some (lexMinGo f rest)

/- ===== ExtractionOrchestrator (Unpacker.extract_archive, lines 89-143)
   ===== -/

/-- Outcome of the external tool invocation at lines 116-119: zero exit,
non-zero exit (CalledProcessError), or any other exception. -/
inductive ToolOutcome
  | success
  | exitFailure
  | raised
deriving DecidableEq

/-- A history record as written by _log_extraction_event. -/
structure ExtractionRecord where
  status : String
  name : String
  path : String
deriving DecidableEq

/-- File-system effects performed by extract_archive, in program order.
invoke stands for the tool run, which writes only inside its output
directory. -/
inductive FSEffect
  | mkdir (path : String)
  | invoke (archive : String) (outDir : String)
  | removeFile (path : String)
deriving DecidableEq

/-- Candidate directory names tried by the collision loop at lines 93-98:
attempt 0 is the bare base name, attempt k for k ≥ 1 is the base name
with the suffix " (k)". -/
def subfolderCandidate (base : String) : Nat → String
  | 0 => base
  | Nat.succ k => base ++ " (" ++ Nat.repr (k + 1) ++ ")"

/-- The while-loop of lines 96-98: starting from attempt k, return the
first candidate whose full path does not exist.  fuel bounds the number
of iterations (the real loop is unbounded; every theorem assumes some
candidate within fuel is free). -/
def allocGo (fs : String → Bool) (parent base : String) : Nat → Nat → Option String
  | 0, _ => none
  | Nat.succ fuel, k =>
    if fs (parent ++ "/" ++ subfolderCandidate base k) then allocGo fs parent base fuel (k + 1)
    else some (subfolderCandidate base k)

/-- Shared tail of extract_archive: the tool invocation and its outcome
handling (lines 109-143).  made records whether a subfolder was created
first. -/
def extractTail (delOnSuccess : Bool) (allParts : List String)
    (archPath outDir extName : String) (outcome : ToolOutcome) (made : Bool) :
    ExtractionRecord × List FSEffect :=
  match outcome with
  | ToolOutcome.success =>
    (⟨"SUCCESS", extName, outDir⟩,
      ((if made then [FSEffect.mkdir outDir] else []) ++ [FSEffect.invoke archPath outDir]) ++
        (if delOnSuccess then allParts.map FSEffect.removeFile else []))
  | _ =>
    (⟨"FAILURE", extName, outDir⟩,
      (if made then [FSEffect.mkdir outDir] else []) ++ [FSEffect.invoke archPath outDir])

/-- Unpacker.extract_archive, lines 89-143.  In subfolder mode the output
directory is allocated by the collision loop and created; in flat mode
the parent directory of the archive is used directly.  Returns the
appended history record and the file-system effect trace; none only when
the allocation fuel runs out. -/
def extractArchive (createSub delOnSuccess : Bool) (fs : String → Bool) (fuel : Nat)
    (archParent archName : String) (allParts : List String) (torrentName : String)
    (outcome : ToolOutcome) : Option (ExtractionRecord × List FSEffect) :=
  if createSub then
    match allocGo fs archParent torrentName fuel 0 with
    | none => none
    | some d =>
      some (extractTail delOnSuccess allParts (archParent ++ "/" ++ archName)
        (archParent ++ "/" ++ d) d outcome true)
  else
    some (extractTail delOnSuccess allParts (archParent ++ "/" ++ archName)
      archParent torrentName outcome false)

/-- Effect semantics on the directory/file existence map: mkdir makes a
path exist, removeFile makes it not exist, the tool invocation touches
nothing outside its output directory in this model. -/
def applyEffect (fs : String → Bool) : FSEffect → String → Bool
  | FSEffect.mkdir p => fun q => if q == p then true else fs q
  | FSEffect.removeFile p => fun q => if q == p then false else fs q
  | FSEffect.invoke _ _ => fs

/-- Fold a trace of effects over an existence map. -/
def applyEffects (fs : String → Bool) (effs : List FSEffect) : String → Bool :=
  effs.foldl applyEffect fs

/- ===== ExtractionHistoryStore (lines 145-148 and 527-547) ===== -/

/-- ASCII whitespace recognised by the Python strip() used on history
lines. -/
def isWsChar (c : Char) : Bool := c == ' ' || c == '\t' || c == '\n' || c == '\r'

/-- Python line.strip(): drop leading and trailing whitespace. -/
def pyStrip (l : List Char) : List Char :=
  ((l.dropWhile isWsChar).reverse.dropWhile isWsChar).reverse

/-- Decompose file contents into lines at newline characters, as the
for-line-in-file loop at line 531 does (each yielded line is then
stripped, so keeping or dropping the terminator is immaterial). -/
def splitNl : List Char → List (List Char)
  | [] => [[]]
  | c :: cs =>
    if c == '\n' then [] :: splitNl cs
    else
      match splitNl cs with
      | [] => [[c]]
      | a :: rest => (c :: a) :: rest

/-- Split at the FIRST occurrence of c: the segment before it and the
remainder after it; none when c does not occur. -/
def splitFirstAt (c : Char) : List Char → Option (List Char × List Char)
  | [] => none
  | d :: ds =>
    if d == c then some ([], ds)
    else
      match splitFirstAt c ds with
      | none => none
      | some (a, b) => some (d :: a, b)

/-- One iteration of _load_extraction_history (lines 531-540): strip the
line, skip it when blank, split at the first two colons, skip it when
fewer than three fields result. -/
def parseHistLine (l : List Char) : Option (List Char × List Char × List Char) :=
  if (pyStrip l).isEmpty then none
  else
    match splitFirstAt ':' (pyStrip l) with
    | none => none
    | some (a, r) =>
      match splitFirstAt ':' r with
      | none => none
      | some (b, c) => some (a, b, c)

/-- The line written by _log_extraction_event (line 148):
STATUS colon NAME colon PATH. -/
def histLine (r : List Char × List Char × List Char) : List Char :=
  r.1 ++ ':' :: (r.2.1 ++ ':' :: r.2.2)

/-- Appending n records to the history file in order, each followed by a
newline. -/
def writeHistory (rs : List (List Char × List Char × List Char)) : List Char :=
  rs.foldr (fun r acc => histLine r ++ '\n' :: acc) []

/-- _load_extraction_history (lines 527-547) restricted to its parsing
behaviour: every line of the file is parsed leniently and failures are
skipped. -/
def loadHistory (content : List Char) : List (List Char × List Char × List Char) :=
  (splitNl content).filterMap parseHistLine

/- ===== CompletionPoller (UnpackMonitorThread.run, lines 203-241) ===== -/

/-- The fields of a torrent-list entry that the poll tick reads. -/
structure Torrent where
  hash : String
  progress : ℚ
  contentPath : String
deriving DecidableEq

/-- Membership test in the processed set (modelled as the list of added
identifiers). -/
def memB (x : String) : List String → Bool
  | [] => false
  | y :: ys => x == y || memB x ys

/-- The selection test of lines 208-211: completion fraction equals 1,
identifier not yet processed, and resolved content path startswith the
resolved monitored root (a plain string-prefix test in the source). -/
def selectsTorrent (p : List String) (root : String) (t : Torrent) : Bool :=
  decide (t.progress = 1) && !(memB t.hash p) && strStartsWith t.contentPath root

/-- Modelled from the spec: the path-containment relation the
specification asks for instead of a prefix-string check: q lies within
root when q equals root or root followed by a path separator leads q. -/
def pathContains (root q : String) : Bool :=
  q == root || hasLead (root ++ "/").data q.data

/-- Observable steps of the dispatch loop at lines 216-228: an identifier
is marked processed, then its extraction is dispatched. -/
inductive PollEvent
  | marked (h : String)
  | dispatched (h : String)
deriving DecidableEq

/-- The for-loop of lines 216-228 over one tick's selected batch: each
item's hash is added to the processed set, then its extraction is
dispatched; if the dispatch raises (raises h = true) the remainder of the
batch is abandoned (the exception propagates to the tick's handler).
Returns the processed set and the emitted event trace. -/
def processBatch (raises : String → Bool) : List Torrent → List String →
    List String × List PollEvent
  | [], p => (p, [])
  | t :: rest, p =>
    if raises t.hash then
      (t.hash :: p, [PollEvent.marked t.hash, PollEvent.dispatched t.hash])
    else
      ((processBatch raises rest (t.hash :: p)).1,
        PollEvent.marked t.hash :: PollEvent.dispatched t.hash ::
          (processBatch raises rest (t.hash :: p)).2)

/-- One poll tick, lines 205-228: filter the current torrent list with
the selection test, then run the dispatch loop over the batch. -/
def tickPoll (raises : String → Bool) (root : String) (ts : List Torrent) (p : List String) :
    List String × List PollEvent :=
  processBatch raises (ts.filter (selectsTorrent p root)) p

/-- A run of the poller over a fixed sequence of per-tick torrent lists,
threading the processed set from tick to tick and concatenating the
event traces. -/
def runPoller (raises : String → Bool) (root : String) : List (List Torrent) → List String →
    List String × List PollEvent
  | [], p => (p, [])
  | ts :: rest, p =>
    ((runPoller raises root rest (tickPoll raises root ts p).1).1,
      (tickPoll raises root ts p).2 ++
        (runPoller raises root rest (tickPoll raises root ts p).1).2)

/-- Whether the body of a poll tick raised. -/
inductive TickOutcome
  | ok
  | err
deriving DecidableEq

/-- The wait performed after a tick: the 60-unit backoff inside the
except branch (line 236, followed by continue), or the normal 15-unit
wait (line 241). -/
def tickWait : TickOutcome → Nat
  | TickOutcome.ok => 15
  | TickOutcome.err => 60

/-- The while-loop of lines 203-241: before each iteration the stop
event is checked; each iteration runs one tick and performs one wait.
Returns the list of waits performed and whether the loop exited because
the stop event was set. -/
def monitorLoop (stop : Nat → Bool) : Nat → List TickOutcome → List Nat × Bool
  | _, [] => ([], false)
  | i, o :: rest =>
    if stop i then ([], true)
    else
      ((tickWait o) :: (monitorLoop stop (i + 1) rest).1, (monitorLoop stop (i + 1) rest).2)

/- ===== helper lemmas: the Python string order ===== -/

theorem charsLt_irrefl : ∀ l : List Char, charsLt l l = false := by
  intro l
  induction l with
  | nil => rfl
  | cons a as ih => simp [charsLt, lt_irrefl, ih]

theorem charsLt_trans : ∀ a b c : List Char, charsLt a b = true → charsLt b c = true →
    charsLt a c = true := by
  intro a
  induction a with
  | nil =>
    intro b c h1 h2
    cases c with
    | nil => cases b <;> simp [charsLt] at h2
    | cons z zs => rfl
  | cons x xs ih =>
    intro b c h1 h2
    cases b with
    | nil => simp [charsLt] at h1
    | cons y ys =>
      cases c with
      | nil => simp [charsLt] at h2
      | cons z zs =>
        simp only [charsLt] at h1 h2 ⊢
        rcases lt_trichotomy x y with hxy | hxy | hxy
        · rcases lt_trichotomy y z with hyz | hyz | hyz
          · simp [lt_trans hxy hyz]
          · subst hyz
            simp [hxy]
          · simp [hyz, asymm hyz] at h2
        · subst hxy
          rcases lt_trichotomy x z with hyz | hyz | hyz
          · simp [hyz]
          · subst hyz
            simp [lt_irrefl] at h1 h2 ⊢
            exact ih _ _ h1 h2
          · simp [hyz, asymm hyz] at h2
        · simp [hxy, asymm hxy] at h1

theorem charsLt_le_lt_trans : ∀ a b c : List Char, charsLt b a = false → charsLt b c = true →
    charsLt a c = true := by
  intro a
  induction a with
  | nil =>
    intro b c h1 h2
    cases c with
    | nil => cases b <;> simp [charsLt] at h2
    | cons z zs => rfl
  | cons x xs ih =>
    intro b c h1 h2
    cases b with
    | nil =>
      cases c with
      | nil => simp [charsLt] at h2
      | cons z zs =>
        simp [charsLt] at h1
    | cons y ys =>
      cases c with
      | nil => simp [charsLt] at h2
      | cons z zs =>
        simp only [charsLt] at h1 h2 ⊢
        rcases lt_trichotomy y x with hxy | hxy | hxy
        · simp [hxy] at h1
        · subst hxy
          simp only [lt_irrefl, if_false] at h1
          rcases lt_trichotomy y z with hyz | hyz | hyz
          · simp [hyz]
          · subst hyz
            simp only [lt_irrefl, if_false] at h2 ⊢
            exact ih _ _ h1 h2
          · simp [hyz, asymm hyz] at h2
        · rcases lt_trichotomy y z with hyz | hyz | hyz
          · simp [lt_trans hxy hyz]
          · subst hyz
            simp [hxy]
          · simp [hyz, asymm hyz] at h2

theorem charsLt_eq_of_not : ∀ a b : List Char, charsLt a b = false → charsLt b a = false →
    a = b := by
  intro a
  induction a with
  | nil =>
    intro b h1 h2
    cases b with
    | nil => rfl
    | cons y ys => simp [charsLt] at h1
  | cons x xs ih =>
    intro b h1 h2
    cases b with
    | nil => simp [charsLt] at h2
    | cons y ys =>
      simp only [charsLt] at h1 h2
      rcases lt_trichotomy x y with hxy | hxy | hxy
      · simp [hxy] at h1
      · subst hxy
        simp only [lt_irrefl, if_false] at h1 h2
        rw [ih ys h1 h2]
      · simp [hxy] at h2

theorem partsLt_irrefl : ∀ l : List (List Char), partsLt l l = false := by
  intro l
  induction l with
  | nil => rfl
  | cons a as ih => simp [partsLt, charsLt_irrefl, ih]

theorem partsLt_trans : ∀ a b c : List (List Char), partsLt a b = true → partsLt b c = true →
    partsLt a c = true := by
  intro a
  induction a with
  | nil =>
    intro b c h1 h2
    cases c with
    | nil => cases b <;> simp [partsLt] at h2
    | cons z zs => rfl
  | cons x xs ih =>
    intro b c h1 h2
    cases b with
    | nil => simp [partsLt] at h1
    | cons y ys =>
      cases c with
      | nil => simp [partsLt] at h2
      | cons z zs =>
        simp only [partsLt] at h1 h2 ⊢
        cases hxy : charsLt x y with
        | true =>
          cases hyz : charsLt y z with
          | true => simp [charsLt_trans x y z hxy hyz]
          | false =>
            cases hzy : charsLt z y with
            | true => simp [hyz, hzy] at h2
            | false =>
              have he : y = z := charsLt_eq_of_not y z hyz hzy
              rw [← he]
              simp [hxy]
        | false =>
          cases hyx : charsLt y x with
          | true => simp [hxy, hyx] at h1
          | false =>
            simp only [hxy, hyx, Bool.false_eq_true, if_false] at h1
            have he : x = y := charsLt_eq_of_not x y hxy hyx
            rw [he]
            cases hyz : charsLt y z with
            | true => simp [hyz]
            | false =>
              cases hzy : charsLt z y with
              | true => simp [hyz, hzy] at h2
              | false =>
                simp only [hyz, hzy, Bool.false_eq_true, if_false] at h2 ⊢
                exact ih ys zs h1 h2

theorem partsLt_le_lt_trans : ∀ a b c : List (List Char), partsLt b a = false →
    partsLt b c = true → partsLt a c = true := by
  intro a
  induction a with
  | nil =>
    intro b c h1 h2
    cases c with
    | nil => cases b <;> simp [partsLt] at h2
    | cons z zs => rfl
  | cons x xs ih =>
    intro b c h1 h2
    cases b with
    | nil =>
      cases c with
      | nil => simp [partsLt] at h2
      | cons z zs => simp [partsLt] at h1
    | cons y ys =>
      cases c with
      | nil => simp [partsLt] at h2
      | cons z zs =>
        simp only [partsLt] at h1 h2 ⊢
        cases hyx : charsLt y x with
        | true => simp [hyx] at h1
        | false =>
          cases hxy : charsLt x y with
          | true =>
            cases hyz : charsLt y z with
            | true => simp [charsLt_trans x y z hxy hyz]
            | false =>
              cases hzy : charsLt z y with
              | true => simp [hyz, hzy] at h2
              | false =>
                have he : y = z := charsLt_eq_of_not y z hyz hzy
                rw [← he]
                simp [hxy]
          | false =>
            simp only [hyx, hxy, Bool.false_eq_true, if_false] at h1
            have he : x = y := charsLt_eq_of_not x y hxy hyx
            rw [he]
            cases hyz : charsLt y z with
            | true => simp [hyz]
            | false =>
              cases hzy : charsLt z y with
              | true => simp [hyz, hzy] at h2
              | false =>
                simp only [hyz, hzy, Bool.false_eq_true, if_false] at h2 ⊢
                exact ih ys zs h1 h2

theorem strPathLt_irrefl (a : String) : strPathLt a a = false := by
  simp only [strPathLt]
  exact partsLt_irrefl _

theorem strPathLt_trans (a b c : String) (h1 : strPathLt a b = true)
    (h2 : strPathLt b c = true) : strPathLt a c = true := by
  simp only [strPathLt] at h1 h2 ⊢
  exact partsLt_trans _ _ _ h1 h2

theorem strPathLt_le_lt_trans (a b c : String) (h1 : strPathLt b a = false)
    (h2 : strPathLt b c = true) : strPathLt a c = true := by
  simp only [strPathLt] at h1 h2 ⊢
  exact partsLt_le_lt_trans _ _ _ h1 h2

/- ===== helper lemmas: the extraction orchestrator ===== -/

theorem extractTail_failure (delOnSuccess : Bool) (allParts : List String)
    (archPath outDir extName : String) (outcome : ToolOutcome) (made : Bool)
    (hoc : outcome ≠ ToolOutcome.success) :
    extractTail delOnSuccess allParts archPath outDir extName outcome made =
      (⟨"FAILURE", extName, outDir⟩,
        (if made then [FSEffect.mkdir outDir] else []) ++ [FSEffect.invoke archPath outDir]) := by
  cases outcome with
  | success => exact absurd rfl hoc
  | exitFailure => rfl
  | raised => rfl

theorem extractTail_name (delOnSuccess : Bool) (allParts : List String)
    (archPath outDir extName : String) (outcome : ToolOutcome) (made : Bool) :
    (extractTail delOnSuccess allParts archPath outDir extName outcome made).1.name = extName := by
  cases outcome <;> rfl

theorem extractTail_made_shape (delOnSuccess : Bool) (allParts : List String)
    (archPath outDir extName : String) (outcome : ToolOutcome) :
    ∃ tail, (extractTail delOnSuccess allParts archPath outDir extName outcome true).2 =
      FSEffect.mkdir outDir :: FSEffect.invoke archPath outDir :: tail := by
  cases outcome with
  | success =>
    exact ⟨(if delOnSuccess then allParts.map FSEffect.removeFile else []), by simp [extractTail]⟩
  | exitFailure => exact ⟨[], by simp [extractTail]⟩
  | raised => exact ⟨[], by simp [extractTail]⟩

theorem extractTail_no_removal (delOnSuccess : Bool) (allParts : List String)
    (archPath outDir extName : String) (outcome : ToolOutcome) (made : Bool)
    (hoc : outcome ≠ ToolOutcome.success) :
    ∀ q, FSEffect.removeFile q ∉
      (extractTail delOnSuccess allParts archPath outDir extName outcome made).2 := by
  intro q
  rw [extractTail_failure delOnSuccess allParts archPath outDir extName outcome made hoc]
  cases made <;> simp

theorem allocGo_spec (fs : String → Bool) (parent base : String) :
    ∀ (fuel start k : Nat), start ≤ k → k < start + fuel →
      fs (parent ++ "/" ++ subfolderCandidate base k) = false →
      ∃ j, start ≤ j ∧
        allocGo fs parent base fuel start = some (subfolderCandidate base j) ∧
        fs (parent ++ "/" ++ subfolderCandidate base j) = false ∧
        ∀ i, start ≤ i → i < j → fs (parent ++ "/" ++ subfolderCandidate base i) = true := by
  intro fuel
  induction fuel with
  | zero =>
    intro start k h1 h2 h3
    omega
  | succ fuel ih =>
    intro start k h1 h2 h3
    by_cases hex : fs (parent ++ "/" ++ subfolderCandidate base start) = true
    · have hks : k ≠ start := by
        intro he
        rw [he] at h3
        rw [h3] at hex
        simp at hex
      obtain ⟨j, hj1, hj2, hj3, hj4⟩ := ih (start + 1) k (by omega) (by omega) h3
      refine ⟨j, by omega, ?_, hj3, ?_⟩
      · simpa [allocGo, hex] using hj2
      · intro i hi1 hi2
        rcases Nat.lt_or_ge i (start + 1) with hcase | hcase
        · have : i = start := by omega
          rw [this]
          exact hex
        · exact hj4 i hcase hi2
    · have hex2 : fs (parent ++ "/" ++ subfolderCandidate base start) = false :=
        Bool.eq_false_iff.mpr hex
      refine ⟨start, le_refl start, ?_, hex2, ?_⟩
      · simp [allocGo, hex2]
      · intro i hi1 hi2
        omega

theorem allocGo_cand (fs : String → Bool) (parent base : String) :
    ∀ (fuel start : Nat) (d : String), allocGo fs parent base fuel start = some d →
      ∃ j, d = subfolderCandidate base j := by
  intro fuel
  induction fuel with
  | zero =>
    intro start d h
    simp [allocGo] at h
  | succ fuel ih =>
    intro start d h
    by_cases hex : fs (parent ++ "/" ++ subfolderCandidate base start) = true
    · simp only [allocGo, hex, if_true] at h
      exact ih (start + 1) d h
    · have hex2 : fs (parent ++ "/" ++ subfolderCandidate base start) = false :=
        Bool.eq_false_iff.mpr hex
      simp only [allocGo, hex2, Bool.false_eq_true, if_false, Option.some.injEq] at h
      exact ⟨start, h.symm⟩

/- ===== C2 ===== -/

/-- C2: the claim says in-scope selection is a path-containment check, so
that a sibling directory such as /downloads2 under monitored root
/downloads is NOT selected.  The source (line 211) uses a plain
startswith string test, which DOES select the sibling: a completed,
never-processed torrent whose content path is /downloads2/file.rar is
selected by the embedded selection test although the path-containment
relation the specification demands rejects it.  This exhibits the
divergence at a concrete failing input. -/
theorem c2_sibling_directory_selected :
    selectsTorrent [] "/downloads" ⟨"h1", 1, "/downloads2/file.rar"⟩ = true ∧
    pathContains "/downloads" "/downloads2/file.rar" = false :=
  ⟨by decide, by decide⟩

/- ===== C9 ===== -/

/-- C9: whenever a poll tick raises, the loop waits the 60-unit backoff
interval instead of the normal 15-unit interval, then resumes polling:
over any run in which the stop event is never set, every scheduled tick
is processed (none is skipped after an error), the wait after each tick
is 60 for a raising tick and 15 otherwise, and the loop never reaches
the stopped state because of a tick exception. -/
theorem c9_backoff_on_poll_failure (stop : Nat → Bool) (i : Nat) (ticks : List TickOutcome)
    (hstop : ∀ n, stop n = false) :
    monitorLoop stop i ticks = (ticks.map tickWait, false) := by
  induction ticks generalizing i with
  | nil => rfl
  | cons o rest ih => simp [monitorLoop, hstop i, ih]

/-- C9 witness: a concrete three-tick run whose middle tick raises waits
15, 60, 15 and is still running afterwards. -/
theorem c9_backoff_on_poll_failure_witness :
    monitorLoop (fun _ => false) 0 [TickOutcome.ok, TickOutcome.err, TickOutcome.ok] =
      ([15, 60, 15], false) :=
  c9_backoff_on_poll_failure (fun _ => false) 0 [TickOutcome.ok, TickOutcome.err, TickOutcome.ok]
    (fun _ => rfl)

/- ===== C8 ===== -/

/-- C8: failure atomicity.  For every extraction attempt in which the
tool exits non-zero or raises, the appended record has status FAILURE and
the effect trace contains no file deletion, whatever the delete-on-success
setting and the destination mode. -/
theorem c8_failure_atomicity (createSub delOnSuccess : Bool) (fs : String → Bool) (fuel : Nat)
    (archParent archName : String) (allParts : List String) (torrentName : String)
    (outcome : ToolOutcome) (rec : ExtractionRecord) (effs : List FSEffect)
    (hoc : outcome ≠ ToolOutcome.success)
    (h : extractArchive createSub delOnSuccess fs fuel archParent archName allParts torrentName
      outcome = some (rec, effs)) :
    rec.status = "FAILURE" ∧ ∀ q, FSEffect.removeFile q ∉ effs := by
  cases createSub with
  | false =>
    simp only [extractArchive, Bool.false_eq_true, if_false, Option.some.injEq] at h
    rw [extractTail_failure delOnSuccess allParts (archParent ++ "/" ++ archName) archParent
      torrentName outcome false hoc] at h
    obtain ⟨h1, h2⟩ := Prod.mk.injEq .. ▸ h.symm
    constructor
    · rw [h1]
    · intro q
      rw [h2]
      simp
  | true =>
    simp only [extractArchive, if_true] at h
    cases halloc : allocGo fs archParent torrentName fuel 0 with
    | none => rw [halloc] at h; cases h
    | some d =>
      rw [halloc] at h
      simp only [Option.some.injEq] at h
      rw [extractTail_failure delOnSuccess allParts (archParent ++ "/" ++ archName)
        (archParent ++ "/" ++ d) d outcome true hoc] at h
      obtain ⟨h1, h2⟩ := Prod.mk.injEq .. ▸ h.symm
      constructor
      · rw [h1]
      · intro q
        rw [h2]
        simp

/-- C8 witness: a concrete flat-mode attempt with non-zero tool exit and
delete-on-success enabled keeps every part. -/
theorem c8_failure_atomicity_witness :
    (⟨"FAILURE", "T", "p"⟩ : ExtractionRecord).status = "FAILURE" ∧
      FSEffect.removeFile "p/a.rar" ∉ [FSEffect.invoke "p/a.rar" "p"] :=
  ⟨(c8_failure_atomicity false true (fun _ => false) 1 "p" "a.rar" ["p/a.rar"] "T"
      ToolOutcome.exitFailure ⟨"FAILURE", "T", "p"⟩ [FSEffect.invoke "p/a.rar" "p"]
      (by decide) (by decide)).1,
    (c8_failure_atomicity false true (fun _ => false) 1 "p" "a.rar" ["p/a.rar"] "T"
      ToolOutcome.exitFailure ⟨"FAILURE", "T", "p"⟩ [FSEffect.invoke "p/a.rar" "p"]
      (by decide) (by decide)).2 "p/a.rar"⟩

/- ===== C10 ===== -/

/-- C10: frame property of a failed subfolder-mode attempt.  The effect
trace is exactly the creation of the allocated directory followed by the
tool invocation: the created directory is never removed, it still exists
after the trace is applied to the file system, its path is exactly the
PATH field of the FAILURE record, and every path other than the created
directory is left exactly as it was. -/
theorem c10_failed_subfolder_frame (delOnSuccess : Bool) (fs : String → Bool) (fuel : Nat)
    (archParent archName : String) (allParts : List String) (torrentName : String)
    (outcome : ToolOutcome) (rec : ExtractionRecord) (effs : List FSEffect)
    (hoc : outcome ≠ ToolOutcome.success)
    (h : extractArchive true delOnSuccess fs fuel archParent archName allParts torrentName
      outcome = some (rec, effs)) :
    effs = [FSEffect.mkdir rec.path, FSEffect.invoke (archParent ++ "/" ++ archName) rec.path] ∧
    applyEffects fs effs rec.path = true ∧
    rec.status = "FAILURE" ∧
    ∀ q, q ≠ rec.path → applyEffects fs effs q = fs q := by
  simp only [extractArchive, if_true] at h
  cases halloc : allocGo fs archParent torrentName fuel 0 with
  | none => rw [halloc] at h; cases h
  | some d =>
    rw [halloc] at h
    simp only [Option.some.injEq] at h
    rw [extractTail_failure delOnSuccess allParts (archParent ++ "/" ++ archName)
      (archParent ++ "/" ++ d) d outcome true hoc] at h
    obtain ⟨h1, h2⟩ := Prod.mk.injEq .. ▸ h.symm
    have hpath : rec.path = archParent ++ "/" ++ d := by rw [h1]
    refine ⟨?_, ?_, ?_, ?_⟩
    · rw [h2, hpath]
      simp
    · rw [h2, hpath]
      simp [applyEffects, applyEffect]
    · rw [h1]
    · intro q hq
      rw [hpath] at hq
      have hbe : (q == archParent ++ "/" ++ d) = false := beq_eq_false_iff_ne.mpr hq
      rw [h2]
      simp only [applyEffects, List.append_assoc, List.cons_append, List.nil_append,
        List.foldl_cons, List.foldl_nil, applyEffect, if_true, hbe]
      simp [hbe]

/-- C10 witness: a concrete failed subfolder attempt on an empty file
system creates exactly directory p/T, which still exists afterwards,
while an unrelated path is untouched. -/
theorem c10_failed_subfolder_frame_witness :
    applyEffects (fun _ => false) [FSEffect.mkdir "p/T", FSEffect.invoke "p/a.rar" "p/T"]
        "p/T" = true ∧
    applyEffects (fun _ => false) [FSEffect.mkdir "p/T", FSEffect.invoke "p/a.rar" "p/T"]
        "p/q" = false :=
  ⟨(c10_failed_subfolder_frame false (fun _ => false) 1 "p" "a.rar" ["p/a.rar"] "T"
      ToolOutcome.raised ⟨"FAILURE", "T", "p/T"⟩
      [FSEffect.mkdir "p/T", FSEffect.invoke "p/a.rar" "p/T"] (by decide) (by decide)).2.1,
    (c10_failed_subfolder_frame false (fun _ => false) 1 "p" "a.rar" ["p/a.rar"] "T"
      ToolOutcome.raised ⟨"FAILURE", "T", "p/T"⟩
      [FSEffect.mkdir "p/T", FSEffect.invoke "p/a.rar" "p/T"] (by decide) (by decide)).2.2.2
      "p/q" (by decide)⟩

/- ===== C3 ===== -/

/-- C3 counterexample: the claim states that when parent/name exists the
successive candidates append " (2)", " (3)", and so on, so with only p/A
existing the chosen directory would be p/A (2).  The embedded collision
loop (counter starts at 1 and is used before being incremented, lines
94-98) chooses p/A (1) instead. -/
theorem c3_counterexample :
    extractArchive true false (fun s => s == "p/A") 5 "p" "x.rar" ["p/x.rar"] "A"
        ToolOutcome.success =
      some (⟨"SUCCESS", "A (1)", "p/A (1)"⟩,
        [FSEffect.mkdir "p/A (1)", FSEffect.invoke "p/x.rar" "p/A (1)"] ++ []) ∧
    ("p/A (1)" : String) ≠ "p/A (2)" :=
  ⟨by decide, by decide⟩

/-- C3 as amended: in subfolder mode the candidate directory names are
parent/containingFolderName, then the same name suffixed " (1)", " (2)",
" (3)", and so on; the chosen directory is the first free candidate (so the
bare name whenever it does not exist), it did not exist beforehand, and it
is created before the tool is invoked. -/
theorem c3_subfolder_allocation (delOnSuccess : Bool) (fs : String → Bool) (fuel k : Nat)
    (archParent archName : String) (allParts : List String) (torrentName : String)
    (outcome : ToolOutcome)
    (hk : k < fuel)
    (hfree : fs (archParent ++ "/" ++ subfolderCandidate torrentName k) = false) :
    ∃ j rec effs,
      extractArchive true delOnSuccess fs fuel archParent archName allParts torrentName outcome
        = some (rec, effs) ∧
      rec.path = archParent ++ "/" ++ subfolderCandidate torrentName j ∧
      fs rec.path = false ∧
      (∀ i, i < j → fs (archParent ++ "/" ++ subfolderCandidate torrentName i) = true) ∧
      (∃ tail, effs = FSEffect.mkdir rec.path ::
        FSEffect.invoke (archParent ++ "/" ++ archName) rec.path :: tail) := by
  obtain ⟨j, hj0, hj2, hj3, hj4⟩ :=
    allocGo_spec fs archParent torrentName fuel 0 k (Nat.zero_le k) (by omega) hfree
  obtain ⟨tail, htail⟩ := extractTail_made_shape delOnSuccess allParts
    (archParent ++ "/" ++ archName) (archParent ++ "/" ++ subfolderCandidate torrentName j)
    (subfolderCandidate torrentName j) outcome
  refine ⟨j,
    (extractTail delOnSuccess allParts (archParent ++ "/" ++ archName)
      (archParent ++ "/" ++ subfolderCandidate torrentName j)
      (subfolderCandidate torrentName j) outcome true).1,
    (extractTail delOnSuccess allParts (archParent ++ "/" ++ archName)
      (archParent ++ "/" ++ subfolderCandidate torrentName j)
      (subfolderCandidate torrentName j) outcome true).2, ?_, ?_, ?_, ?_, ?_⟩
  · simp only [extractArchive, if_true, hj2]
  · cases outcome <;> rfl
  · have : (extractTail delOnSuccess allParts (archParent ++ "/" ++ archName)
        (archParent ++ "/" ++ subfolderCandidate torrentName j)
        (subfolderCandidate torrentName j) outcome true).1.path =
        archParent ++ "/" ++ subfolderCandidate torrentName j := by
      cases outcome <;> rfl
    rw [this]
    exact hj3
  · intro i hi
    exact hj4 i (Nat.zero_le i) hi
  · refine ⟨tail, ?_⟩
    have hp : (extractTail delOnSuccess allParts (archParent ++ "/" ++ archName)
        (archParent ++ "/" ++ subfolderCandidate torrentName j)
        (subfolderCandidate torrentName j) outcome true).1.path =
        archParent ++ "/" ++ subfolderCandidate torrentName j := by
      cases outcome <;> rfl
    rw [hp]
    exact htail

/-- C3 witness: with only p/B existing, the attempt allocates and uses
p/B (1): the amended claim instantiated at a concrete input. -/
theorem c3_subfolder_allocation_witness :
    ∃ j rec effs,
      extractArchive true false (fun s => s == "p/B") 5 "p" "y.rar" ["p/y.rar"] "B"
        ToolOutcome.raised = some (rec, effs) ∧
      rec.path = "p" ++ "/" ++ subfolderCandidate "B" j ∧
      (fun s => s == "p/B") rec.path = false ∧
      (∀ i, i < j → (fun s => s == "p/B") ("p" ++ "/" ++ subfolderCandidate "B" i) = true) ∧
      (∃ tail, effs = FSEffect.mkdir rec.path ::
        FSEffect.invoke ("p" ++ "/" ++ "y.rar") rec.path :: tail) :=
  c3_subfolder_allocation false (fun s => s == "p/B") 5 1 "p" "y.rar" ["p/y.rar"] "B"
    ToolOutcome.raised (by decide) (by decide)

/- ===== C4 ===== -/

/-- C4 counterexample: the claim states the recorded NAME always equals
the containing folder name.  With the containing folder name T and a
pre-existing directory q/T, the collision loop renames the destination
and the appended record carries NAME T (1), not T. -/
theorem c4_counterexample :
    (extractArchive true false (fun s => s == "q/T") 5 "q" "z.rar" ["q/z.rar"] "T"
        ToolOutcome.success).map (fun r => r.1.name) = some "T (1)" ∧
    ("T (1)" : String) ≠ "T" :=
  ⟨by decide, by decide⟩

/-- C4 as amended: the recorded NAME is derived solely from the
containing folder name, never from the archive base name: in flat mode it
is exactly the containing folder name, in subfolder mode it is the chosen
output directory name, which is the containing folder name possibly
suffixed with " (k)" by collision avoidance; replacing the archive file
and part list by any other leaves the recorded NAME unchanged. -/
theorem c4_recorded_name (createSub delOnSuccess : Bool) (fs : String → Bool) (fuel : Nat)
    (archParent archName archName2 : String) (allParts allParts2 : List String)
    (torrentName : String) (outcome : ToolOutcome) (rec : ExtractionRecord)
    (effs : List FSEffect)
    (h : extractArchive createSub delOnSuccess fs fuel archParent archName allParts torrentName
      outcome = some (rec, effs)) :
    (∃ k, rec.name = subfolderCandidate torrentName k) ∧
    (createSub = false → rec.name = torrentName) ∧
    (extractArchive createSub delOnSuccess fs fuel archParent archName2 allParts2 torrentName
        outcome).map (fun r => r.1.name) = some rec.name := by
  cases createSub with
  | false =>
    simp only [extractArchive, Bool.false_eq_true, if_false, Option.some.injEq] at h
    have hr : rec = (extractTail delOnSuccess allParts (archParent ++ "/" ++ archName) archParent
        torrentName outcome false).1 := by rw [h]
    have hname : rec.name = torrentName := by rw [hr, extractTail_name]
    refine ⟨⟨0, hname⟩, fun _ => hname, ?_⟩
    show some ((extractTail delOnSuccess allParts2 (archParent ++ "/" ++ archName2) archParent
        torrentName outcome false).1.name) = some rec.name
    rw [hname, extractTail_name]
  | true =>
    simp only [extractArchive, if_true] at h
    cases halloc : allocGo fs archParent torrentName fuel 0 with
    | none => rw [halloc] at h; cases h
    | some d =>
      rw [halloc] at h
      simp only [Option.some.injEq] at h
      have hr : rec = (extractTail delOnSuccess allParts (archParent ++ "/" ++ archName)
          (archParent ++ "/" ++ d) d outcome true).1 := by rw [h]
      have hname : rec.name = d := by rw [hr, extractTail_name]
      obtain ⟨j, hj⟩ := allocGo_cand fs archParent torrentName fuel 0 d halloc
      refine ⟨⟨j, by rw [hname, hj]⟩, ?_, ?_⟩
      · intro hcs
        cases hcs
      · simp only [extractArchive, if_true, halloc]
        show some ((extractTail delOnSuccess allParts2 (archParent ++ "/" ++ archName2)
            (archParent ++ "/" ++ d) d outcome true).1.name) = some rec.name
        rw [hname, extractTail_name]

/-- C4 witness: a concrete collision-free subfolder attempt records NAME
equal to the containing folder name and ignores the archive name. -/
theorem c4_recorded_name_witness :
    (∃ k, (⟨"SUCCESS", "T", "p/T"⟩ : ExtractionRecord).name = subfolderCandidate "T" k) ∧
    (true = false → (⟨"SUCCESS", "T", "p/T"⟩ : ExtractionRecord).name = "T") ∧
    (extractArchive true false (fun _ => false) 3 "p" "other.zip" [] "T"
        ToolOutcome.success).map (fun r => r.1.name) =
      some (⟨"SUCCESS", "T", "p/T"⟩ : ExtractionRecord).name :=
  c4_recorded_name true false (fun _ => false) 3 "p" "a.rar" "other.zip" ["p/a.rar"] [] "T"
    ToolOutcome.success ⟨"SUCCESS", "T", "p/T"⟩
    [FSEffect.mkdir "p/T", FSEffect.invoke "p/a.rar" "p/T"] (by decide)

/- ===== helper lemmas: primary-part selection ===== -/

theorem filter_head_eq_find {α : Type} (p : α → Bool) :
    ∀ l : List α, (l.filter p).head? = l.find? p := by
  intro l
  induction l with
  | nil => rfl
  | cons a rest ih =>
    cases hp : p a with
    | true => simp [List.filter_cons, hp, List.find?_cons_of_pos]
    | false => simp [List.filter_cons, hp, List.find?_cons_of_neg, ih]

theorem lexMinGo_mem : ∀ (l : List String) (cur : String),
    lexMinGo cur l = cur ∨ lexMinGo cur l ∈ l := by
  intro l
  induction l with
  | nil =>
    intro cur
    exact Or.inl rfl
  | cons f rest ih =>
    intro cur
    cases hcmp : strPathLt f cur with
    | true =>
      rcases ih f with hm | hm
      · right
        rw [show lexMinGo cur (f :: rest) = lexMinGo f rest from by simp [lexMinGo, hcmp], hm]
        exact List.mem_cons_self f rest
      · right
        rw [show lexMinGo cur (f :: rest) = lexMinGo f rest from by simp [lexMinGo, hcmp]]
        exact List.mem_cons_of_mem f hm
    | false =>
      rcases ih cur with hm | hm
      · left
        rw [show lexMinGo cur (f :: rest) = lexMinGo cur rest from by simp [lexMinGo, hcmp], hm]
      · right
        rw [show lexMinGo cur (f :: rest) = lexMinGo cur rest from by simp [lexMinGo, hcmp]]
        exact List.mem_cons_of_mem f hm

theorem lexMinGo_min : ∀ (l : List String) (cur q : String), (q = cur ∨ q ∈ l) →
    strPathLt q (lexMinGo cur l) = false := by
  intro l
  induction l with
  | nil =>
    intro cur q hq
    rcases hq with rfl | hq
    · exact strPathLt_irrefl q
    · cases hq
  | cons f rest ih =>
    intro cur q hq
    cases hcmp : strPathLt f cur with
    | true =>
      rw [show lexMinGo cur (f :: rest) = lexMinGo f rest from by simp [lexMinGo, hcmp]]
      rcases hq with rfl | hq
      · cases hr : strPathLt q (lexMinGo f rest) with
        | false => rfl
        | true =>
          have hfr : strPathLt f (lexMinGo f rest) = false := ih f f (Or.inl rfl)
          have hx : strPathLt f (lexMinGo f rest) = true :=
            strPathLt_trans f _ _ hcmp hr
          rw [hfr] at hx
          exact Bool.noConfusion hx
      · rcases List.mem_cons.mp hq with he | hq
        · rw [he]
          exact ih f f (Or.inl rfl)
        · exact ih f q (Or.inr hq)
    | false =>
      rw [show lexMinGo cur (f :: rest) = lexMinGo cur rest from by simp [lexMinGo, hcmp]]
      rcases hq with rfl | hq
      · exact ih q q (Or.inl rfl)
      · rcases List.mem_cons.mp hq with he | hq
        · cases hr : strPathLt q (lexMinGo cur rest) with
          | false => rfl
          | true =>
            have hcr : strPathLt cur (lexMinGo cur rest) = false := ih cur cur (Or.inl rfl)
            have hx : strPathLt cur (lexMinGo cur rest) = true := by
              rw [he] at hr
              exact strPathLt_le_lt_trans cur _ _ hcmp hr
            rw [hcr] at hx
            exact Bool.noConfusion hx
        · exact ih cur q (Or.inr hq)

/- ===== C5 ===== -/

/-- C5: primary-part selection.  For every nonempty group, the selected
primary exists and is unique (primaryFile is a function, so the choice is
deterministic); when some member has extension ".rar" up to case, the
primary is the first such member in encounter order (List.find?); when no
member does, the primary is a member of the group with no member strictly
below it in the order Python sorts Path values by: the lexicographic
comparison of parts lists (strPathLt). -/
theorem c5_primary_selection (files : List String) (hne : files ≠ []) :
    ∃ p, primaryFile files = some p ∧
      ((∃ f ∈ files, isRarB f = true) → files.find? isRarB = some p) ∧
      ((∀ f ∈ files, isRarB f = false) →
        p ∈ files ∧ ∀ q ∈ files, strPathLt q p = false) := by
  cases hf : files.filter isRarB with
  | cons g grest =>
    refine ⟨g, ?_, ?_, ?_⟩
    · simp only [primaryFile, hf]
    · intro hex
      rw [← filter_head_eq_find isRarB files, hf]
      rfl
    · intro hall
      have hg : g ∈ files.filter isRarB := by rw [hf]; exact List.mem_cons_self g grest
      have := List.mem_filter.mp hg
      rw [hall g this.1] at this
      cases this.2
  | nil =>
    cases files with
    | nil => exact absurd rfl hne
    | cons f rest =>
      refine ⟨lexMinGo f rest, ?_, ?_, ?_⟩
      · simp only [primaryFile, hf]
      · intro hex
        obtain ⟨x, hx1, hx2⟩ := hex
        have : x ∈ (f :: rest).filter isRarB := List.mem_filter.mpr ⟨hx1, hx2⟩
        rw [hf] at this
        cases this
      · intro hall
        constructor
        · rcases lexMinGo_mem rest f with hm | hm
          · rw [hm]
            exact List.mem_cons_self f rest
          · exact List.mem_cons_of_mem f hm
        · intro q hq
          rcases List.mem_cons.mp hq with he | hq
          · rw [he]
            exact lexMinGo_min rest f f (Or.inl rfl)
          · exact lexMinGo_min rest f q (Or.inr hq)

/-- C5 witness: a cross-directory group with no ".rar" member, where the
parts-list order and the raw-string order disagree (d/disc/x.001 sorts
before d/disc-2/x.001 as a Path although the hyphen precedes the slash as
a code point): the theorem applies at this concrete input. -/
theorem c5_primary_selection_witness :
    ∃ p, primaryFile ["d/disc-2/x.001", "d/disc/x.001"] = some p ∧
      ((∃ f ∈ ["d/disc-2/x.001", "d/disc/x.001"], isRarB f = true) →
        (["d/disc-2/x.001", "d/disc/x.001"]).find? isRarB = some p) ∧
      ((∀ f ∈ ["d/disc-2/x.001", "d/disc/x.001"], isRarB f = false) →
        p ∈ ["d/disc-2/x.001", "d/disc/x.001"] ∧
          ∀ q ∈ ["d/disc-2/x.001", "d/disc/x.001"], strPathLt q p = false) :=
  c5_primary_selection ["d/disc-2/x.001", "d/disc/x.001"] (by decide)

/- ===== helper lemmas: history store ===== -/

theorem splitNl_append : ∀ (a rest : List Char), '\n' ∉ a →
    splitNl (a ++ '\n' :: rest) = a :: splitNl rest := by
  intro a
  induction a with
  | nil =>
    intro rest hna
    simp [splitNl]
  | cons c cs ih =>
    intro rest hna
    have hc : (c == '\n') = false := by
      have : c ≠ '\n' := fun he => hna (he ▸ List.mem_cons_self c cs)
      exact beq_eq_false_iff_ne.mpr this
    have hcs : '\n' ∉ cs := fun hm => hna (List.mem_cons_of_mem c hm)
    simp only [List.cons_append, splitNl, hc, Bool.false_eq_true, if_false]
    rw [show cs.append ('\n' :: rest) = cs ++ '\n' :: rest from rfl]
    rw [ih rest hcs]

theorem splitFirstAt_append (c : Char) : ∀ (a b : List Char), c ∉ a →
    splitFirstAt c (a ++ c :: b) = some (a, b) := by
  intro a
  induction a with
  | nil =>
    intro b hna
    simp [splitFirstAt]
  | cons d ds ih =>
    intro b hna
    have hd : (d == c) = false := by
      have : d ≠ c := fun he => hna (he ▸ List.mem_cons_self d ds)
      exact beq_eq_false_iff_ne.mpr this
    have hds : c ∉ ds := fun hm => hna (List.mem_cons_of_mem d hm)
    simp only [List.cons_append, splitFirstAt, hd, Bool.false_eq_true, if_false]
    rw [show ds.append (c :: b) = ds ++ c :: b from rfl]
    rw [ih b hds]

theorem splitFirstAt_some (c : Char) : ∀ (l a b : List Char),
    splitFirstAt c l = some (a, b) → l = a ++ c :: b ∧ c ∉ a := by
  intro l
  induction l with
  | nil =>
    intro a b h
    cases h
  | cons d ds ih =>
    intro a b h
    cases hd : d == c with
    | true =>
      rw [splitFirstAt, if_pos hd] at h
      obtain ⟨ha, hb⟩ := Prod.mk.injEq .. ▸ (Option.some.injEq .. ▸ h)
      subst ha
      subst hb
      have : d = c := eq_of_beq hd
      subst this
      exact ⟨rfl, List.not_mem_nil d⟩
    | false =>
      rw [splitFirstAt, if_neg (by simp [hd])] at h
      cases hrec : splitFirstAt c ds with
      | none => rw [hrec] at h; cases h
      | some pr =>
        rw [hrec] at h
        obtain ⟨p1, p2⟩ := pr
        simp only [Option.some.injEq, Prod.mk.injEq] at h
        obtain ⟨ha, hb⟩ := h
        obtain ⟨hds, hnot⟩ := ih p1 p2 hrec
        subst hb
        constructor
        · rw [← ha, hds]
          rfl
        · rw [← ha]
          intro hm
          rcases List.mem_cons.mp hm with he | hm2
          · rw [he] at hd
            simp at hd
          · exact hnot hm2

theorem splitFirstAt_none (c : Char) : ∀ l : List Char, c ∉ l → splitFirstAt c l = none := by
  intro l
  induction l with
  | nil =>
    intro h
    rfl
  | cons d ds ih =>
    intro h
    have hd : (d == c) = false := by
      have : d ≠ c := fun he => h (by rw [he]; exact List.mem_cons_self c ds)
      exact beq_eq_false_iff_ne.mpr this
    have hds : c ∉ ds := fun hm => h (List.mem_cons_of_mem d hm)
    simp only [splitFirstAt, hd, Bool.false_eq_true, if_false, ih hds]

theorem histLine_isEmpty (r : List Char × List Char × List Char) :
    (histLine r).isEmpty = false := by
  cases hr : r.1 with
  | nil => simp [histLine, hr]
  | cons x xs => simp [histLine, hr]

theorem parseHistLine_round (r : List Char × List Char × List Char)
    (hs : ':' ∉ r.1) (hn : ':' ∉ r.2.1)
    (hstrip : pyStrip (histLine r) = histLine r) :
    parseHistLine (histLine r) = some r := by
  have h1 : splitFirstAt ':' (histLine r) = some (r.1, r.2.1 ++ ':' :: r.2.2) := by
    simp only [histLine]
    exact splitFirstAt_append ':' r.1 (r.2.1 ++ ':' :: r.2.2) hs
  have h2 : splitFirstAt ':' (r.2.1 ++ ':' :: r.2.2) = some (r.2.1, r.2.2) :=
    splitFirstAt_append ':' r.2.1 r.2.2 hn
  simp [parseHistLine, hstrip, histLine_isEmpty, h1, h2]

theorem parseHistLine_junk (junk : List Char)
    (hc : List.count ':' (pyStrip junk) < 2) :
    parseHistLine junk = none := by
  rw [parseHistLine]
  cases hemp : (pyStrip junk).isEmpty with
  | true => rw [if_pos (by simp [hemp])]
  | false =>
    rw [if_neg (by simp [hemp])]
    cases h1 : splitFirstAt ':' (pyStrip junk) with
    | none => rfl
    | some pr =>
      obtain ⟨a, b⟩ := pr
      obtain ⟨hdec, hna⟩ := splitFirstAt_some ':' (pyStrip junk) a b h1
      have hca : List.count ':' a = 0 := List.count_eq_zero.mpr hna
      have hcb : List.count ':' b = 0 := by
        rw [hdec] at hc
        rw [List.count_append, List.count_cons] at hc
        simp [hca] at hc
        omega
      have hnb : ':' ∉ b := List.count_eq_zero.mp hcb
      simp [splitFirstAt_none ':' b hnb]

theorem newline_not_mem_histLine (r : List Char × List Char × List Char)
    (h1 : '\n' ∉ r.1) (h2 : '\n' ∉ r.2.1) (h3 : '\n' ∉ r.2.2) :
    '\n' ∉ histLine r := by
  intro hm
  rw [histLine] at hm
  rcases List.mem_append.mp hm with hma | hmb
  · exact h1 hma
  · rcases List.mem_cons.mp hmb with he | hmc
    · cases he
    · rcases List.mem_append.mp hmc with hmd | hme
      · exact h2 hmd
      · rcases List.mem_cons.mp hme with he | hmf
        · cases he
        · exact h3 hmf

/- ===== C7 ===== -/

/-- C7: history round trip and lenient parse.  Writing n records whose
STATUS and NAME fields are colon-free, whose fields are newline-free, and
whose serialised line survives strip unchanged, then loading the file,
yields exactly those n records in order (PATH fields may contain colons:
the split takes exactly the first two colons).  Moreover a leading line
whose stripped form has fewer than two colons is skipped without
affecting the records loaded after it. -/
theorem c7_history_round_trip (rs : List (List Char × List Char × List Char)) (junk : List Char)
    (hr : ∀ r ∈ rs, (':' ∉ r.1 ∧ ':' ∉ r.2.1) ∧
      ('\n' ∉ r.1 ∧ '\n' ∉ r.2.1 ∧ '\n' ∉ r.2.2) ∧
      pyStrip (histLine r) = histLine r)
    (hj : '\n' ∉ junk) (hjc : List.count ':' (pyStrip junk) < 2) :
    loadHistory (writeHistory rs) = rs ∧
    loadHistory (junk ++ '\n' :: writeHistory rs) = rs := by
  have main : loadHistory (writeHistory rs) = rs := by
    induction rs with
    | nil => rfl
    | cons r rest ih =>
      have hrr := hr r (List.mem_cons_self r rest)
      have hrest : ∀ x ∈ rest, (':' ∉ x.1 ∧ ':' ∉ x.2.1) ∧
          ('\n' ∉ x.1 ∧ '\n' ∉ x.2.1 ∧ '\n' ∉ x.2.2) ∧
          pyStrip (histLine x) = histLine x :=
        fun x hx => hr x (List.mem_cons_of_mem r hx)
      have hnl : '\n' ∉ histLine r :=
        newline_not_mem_histLine r hrr.2.1.1 hrr.2.1.2.1 hrr.2.1.2.2
      have hw : writeHistory (r :: rest) = histLine r ++ '\n' :: writeHistory rest := rfl
      rw [loadHistory, hw, splitNl_append (histLine r) (writeHistory rest) hnl]
      simp only [List.filterMap_cons, parseHistLine_round r hrr.1.1 hrr.1.2 hrr.2.2]
      rw [show List.filterMap parseHistLine (splitNl (writeHistory rest)) =
        loadHistory (writeHistory rest) from rfl]
      rw [ih hrest]
  refine ⟨main, ?_⟩
  rw [loadHistory, splitNl_append junk (writeHistory rs) hj, List.filterMap_cons,
    parseHistLine_junk junk hjc]
  exact main

/-- C7 witness: two concrete records, the second with a colon inside its
PATH, survive a round trip through the history file even when preceded by
a malformed line, which is skipped. -/
theorem c7_history_round_trip_witness :
    loadHistory (writeHistory [("SUCCESS".data, "Show".data, "/d/out".data),
      ("FAILURE".data, "Other".data, "/d:1/out".data)]) =
      [("SUCCESS".data, "Show".data, "/d/out".data),
        ("FAILURE".data, "Other".data, "/d:1/out".data)] ∧
    loadHistory ("garbage line".data ++ '\n' ::
        writeHistory [("SUCCESS".data, "Show".data, "/d/out".data),
          ("FAILURE".data, "Other".data, "/d:1/out".data)]) =
      [("SUCCESS".data, "Show".data, "/d/out".data),
        ("FAILURE".data, "Other".data, "/d:1/out".data)] :=
  c7_history_round_trip
    [("SUCCESS".data, "Show".data, "/d/out".data),
      ("FAILURE".data, "Other".data, "/d:1/out".data)]
    "garbage line".data (by decide) (by decide) (by decide)

/- ===== helper lemmas: base names and grouping ===== -/

theorem lowerChars_rar : lowerChars rarChars = rarChars := by decide

theorem partMatch_none_of_rar (n : List Char)
    (h : lowerChars (pySuffixL n) = rarChars) : partMatch n = none := by
  cases hs : splitAtLastC '.' n with
  | none =>
    simp [partMatch, hs]
  | some pr =>
    obtain ⟨p, t⟩ := pr
    cases hpe : p.isEmpty with
    | true =>
      simp [partMatch, hs, hpe]
    | false =>
      cases hte : t.isEmpty with
      | true =>
        rw [pySuffixL, hs] at h
        simp only [hpe, hte, Bool.or_true, if_true] at h
        simp [lowerChars, rarChars] at h
      | false =>
        rw [pySuffixL, hs] at h
        simp only [hpe, hte, Bool.or_self, Bool.false_eq_true, if_false] at h
        have hdot : Char.toLower '.' = '.' := by decide
        rw [show lowerChars ('.' :: t) = Char.toLower '.' :: lowerChars t from rfl, hdot] at h
        have hmap : lowerChars t = ['r', 'a', 'r'] := by
          have := List.cons.injEq (Char.toLower '.') (lowerChars t) '.' ['r', 'a', 'r'] ▸ h
          rw [rarChars] at h
          exact (List.cons.injEq .. ▸ h).2
        have htok : isPartTok t = false := by
          simp only [isPartTok, hmap]
          decide
        simp [partMatch, hs, htok]

theorem base_name_eq_spec (path : String) : pyBaseName path = specBaseName path := by
  cases hpm : partMatch (pyStemL (fileNameOf path.data)) with
  | some b => simp [pyBaseName, specBaseName, hpm]
  | none =>
    simp only [pyBaseName, specBaseName, hpm]
    cases hlow : lowerChars (pySuffixL (fileNameOf path.data)) == rarChars with
    | true =>
      have heq : lowerChars (pySuffixL (fileNameOf path.data)) = rarChars := eq_of_beq hlow
      have hpm2 : partMatch (fileNameOf path.data) = none :=
        partMatch_none_of_rar (fileNameOf path.data) heq
      cases hex : pySuffixL (fileNameOf path.data) == rarChars with
      | true => simp [hlow, hex, hpm2]
      | false => simp [hlow, hex, hpm2]
    | false =>
      have hex : (pySuffixL (fileNameOf path.data) == rarChars) = false := by
        cases hx : pySuffixL (fileNameOf path.data) == rarChars with
        | false => rfl
        | true =>
          have : pySuffixL (fileNameOf path.data) = rarChars := eq_of_beq hx
          rw [this, lowerChars_rar] at hlow
          simp at hlow
      simp [hlow, hex]

theorem igKeys (key f : String) : ∀ (acc : List (String × List String)) (x : String),
    x ∈ (insertGrouped key f acc).map Prod.fst → x = key ∨ x ∈ acc.map Prod.fst := by
  intro acc
  induction acc with
  | nil =>
    intro x hx
    simp [insertGrouped] at hx
    exact Or.inl hx
  | cons e acc ih =>
    obtain ⟨a, b⟩ := e
    intro x hx
    cases ha : a == key with
    | true =>
      rw [insertGrouped, if_pos ha] at hx
      simp only [List.map_cons] at hx
      rcases List.mem_cons.mp hx with he | hx2
      · exact Or.inr (by simp [he])
      · exact Or.inr (List.mem_cons_of_mem a hx2)
    | false =>
      rw [insertGrouped, if_neg (by simp [ha])] at hx
      simp only [List.map_cons] at hx
      rcases List.mem_cons.mp hx with he | hx2
      · exact Or.inr (by simp [he])
      · rcases ih x hx2 with hk | hm
        · exact Or.inl hk
        · exact Or.inr (List.mem_cons_of_mem a hm)

theorem igNodup (key f : String) : ∀ (acc : List (String × List String)),
    (acc.map Prod.fst).Nodup → ((insertGrouped key f acc).map Prod.fst).Nodup := by
  intro acc
  induction acc with
  | nil =>
    intro _
    simp [insertGrouped]
  | cons e acc ih =>
    obtain ⟨a, b⟩ := e
    intro hnd
    simp only [List.map_cons, List.nodup_cons] at hnd
    obtain ⟨hna, hnd2⟩ := hnd
    cases ha : a == key with
    | true =>
      rw [insertGrouped, if_pos ha]
      simp only [List.map_cons, List.nodup_cons]
      exact ⟨hna, hnd2⟩
    | false =>
      rw [insertGrouped, if_neg (by simp [ha])]
      simp only [List.map_cons, List.nodup_cons]
      refine ⟨?_, ih hnd2⟩
      intro hmem
      rcases igKeys key f acc a hmem with he | hm
      · rw [he] at ha
        simp at ha
      · exact hna hm

theorem igMem (key f : String) : ∀ (acc : List (String × List String)),
    (acc.map Prod.fst).Nodup →
    ∀ k g, (k, g) ∈ insertGrouped key f acc →
      (k ≠ key ∧ (k, g) ∈ acc) ∨
      (k = key ∧ (∀ g0, (key, g0) ∉ acc) ∧ g = [f]) ∨
      (k = key ∧ ∃ g0, (key, g0) ∈ acc ∧ g = g0 ++ [f]) := by
  intro acc
  induction acc with
  | nil =>
    intro _ k g hm
    simp only [insertGrouped, List.mem_singleton, Prod.mk.injEq] at hm
    exact Or.inr (Or.inl ⟨hm.1, fun g0 => List.not_mem_nil (key, g0), hm.2⟩)
  | cons e acc ih =>
    obtain ⟨a, b⟩ := e
    intro hnd k g hm
    simp only [List.map_cons, List.nodup_cons] at hnd
    obtain ⟨hna, hnd2⟩ := hnd
    cases ha : a == key with
    | true =>
      have haeq : a = key := eq_of_beq ha
      rw [insertGrouped, if_pos ha] at hm
      rcases List.mem_cons.mp hm with he | hm2
      · obtain ⟨h1, h2⟩ := Prod.mk.injEq .. ▸ he
        refine Or.inr (Or.inr ⟨h1.trans haeq, b, ?_, h2⟩)
        rw [← haeq]
        exact List.mem_cons_self (a, b) acc
      · have hk : k ≠ key := by
          intro he
          apply hna
          rw [haeq]
          rw [he] at hm2
          exact List.mem_map_of_mem Prod.fst hm2
        exact Or.inl ⟨hk, List.mem_cons_of_mem (a, b) hm2⟩
    | false =>
      have hane : a ≠ key := by
        intro he
        rw [he] at ha
        simp at ha
      rw [insertGrouped, if_neg (by simp [ha])] at hm
      rcases List.mem_cons.mp hm with he | hm2
      · obtain ⟨h1, h2⟩ := Prod.mk.injEq .. ▸ he
        refine Or.inl ⟨h1 ▸ hane, ?_⟩
        rw [he]
        exact List.mem_cons_self (a, b) acc
      · rcases ih hnd2 k g hm2 with ⟨hk, hmem⟩ | ⟨hk, hng, hg⟩ | ⟨hk, g0, hg0, hg⟩
        · exact Or.inl ⟨hk, List.mem_cons_of_mem (a, b) hmem⟩
        · refine Or.inr (Or.inl ⟨hk, ?_, hg⟩)
          intro g0 hg0
          rcases List.mem_cons.mp hg0 with he2 | hm3
          · exact hane (Prod.mk.injEq .. ▸ he2).1.symm
          · exact hng g0 hm3
        · exact Or.inr (Or.inr ⟨hk, g0, List.mem_cons_of_mem (a, b) hg0, hg⟩)

theorem igPreserve (key f : String) : ∀ (acc : List (String × List String)) (k : String)
    (g : List String), (k, g) ∈ acc → ∃ g2, (k, g2) ∈ insertGrouped key f acc := by
  intro acc
  induction acc with
  | nil =>
    intro k g hm
    cases hm
  | cons e acc ih =>
    obtain ⟨a, b⟩ := e
    intro k g hm
    cases ha : a == key with
    | true =>
      rw [insertGrouped, if_pos ha]
      rcases List.mem_cons.mp hm with he | hm2
      · obtain ⟨h1, h2⟩ := Prod.mk.injEq .. ▸ he
        exact ⟨b ++ [f], by rw [h1]; exact List.mem_cons_self (a, b ++ [f]) acc⟩
      · exact ⟨g, List.mem_cons_of_mem (a, b ++ [f]) hm2⟩
    | false =>
      rw [insertGrouped, if_neg (by simp [ha])]
      rcases List.mem_cons.mp hm with he | hm2
      · obtain ⟨h1, h2⟩ := Prod.mk.injEq .. ▸ he
        exact ⟨b, by rw [h1]; exact List.mem_cons_self (a, b) (insertGrouped key f acc)⟩
      · obtain ⟨g2, hg2⟩ := ih k g hm2
        exact ⟨g2, List.mem_cons_of_mem (a, b) hg2⟩

theorem igSelf (key f : String) : ∀ acc : List (String × List String),
    ∃ g, (key, g) ∈ insertGrouped key f acc := by
  intro acc
  induction acc with
  | nil =>
    exact ⟨[f], List.mem_singleton.mpr rfl⟩
  | cons e acc ih =>
    obtain ⟨a, b⟩ := e
    cases ha : a == key with
    | true =>
      rw [insertGrouped, if_pos ha]
      refine ⟨b ++ [f], ?_⟩
      rw [show a = key from eq_of_beq ha] at *
      exact List.mem_cons_self (key, b ++ [f]) acc
    | false =>
      rw [insertGrouped, if_neg (by simp [ha])]
      obtain ⟨g, hg⟩ := ih
      exact ⟨g, List.mem_cons_of_mem (a, b) hg⟩

theorem groupFold_invariant : ∀ (files : List String) (acc : List (String × List String))
    (seen : List String),
    (acc.map Prod.fst).Nodup →
    (∀ k g, (k, g) ∈ acc → g = seen.filter (fun f => pyBaseName f == k)) →
    (∀ f0 ∈ seen, ∃ g, (pyBaseName f0, g) ∈ acc) →
    ((files.foldl (fun a f => insertGrouped (pyBaseName f) f a) acc).map Prod.fst).Nodup ∧
    (∀ k g, (k, g) ∈ files.foldl (fun a f => insertGrouped (pyBaseName f) f a) acc →
      g = (seen ++ files).filter (fun f => pyBaseName f == k)) ∧
    (∀ f0 ∈ seen ++ files,
      ∃ g, (pyBaseName f0, g) ∈ files.foldl (fun a f => insertGrouped (pyBaseName f) f a) acc) := by
  intro files
  induction files with
  | nil =>
    intro acc seen hnd hflt hcov
    simp only [List.foldl_nil, List.append_nil]
    exact ⟨hnd, hflt, hcov⟩
  | cons f rest ih =>
    intro acc seen hnd hflt hcov
    have hnd2 : ((insertGrouped (pyBaseName f) f acc).map Prod.fst).Nodup :=
      igNodup (pyBaseName f) f acc hnd
    have hflt2 : ∀ k g, (k, g) ∈ insertGrouped (pyBaseName f) f acc →
        g = (seen ++ [f]).filter (fun x => pyBaseName x == k) := by
      intro k g hm
      rcases igMem (pyBaseName f) f acc hnd k g hm with
        ⟨hk, hmem⟩ | ⟨hk, hng, hg⟩ | ⟨hk, g0, hg0, hg⟩
      · have hfk : (pyBaseName f == k) = false := beq_eq_false_iff_ne.mpr (Ne.symm hk)
        rw [List.filter_append, ← hflt k g hmem]
        simp [hfk]
      · have hnil : seen.filter (fun x => pyBaseName x == k) = [] := by
          rw [List.filter_eq_nil_iff]
          intro x hx
          intro hbx
          obtain ⟨g1, hg1⟩ := hcov x hx
          apply hng g1
          rw [← hk, ← eq_of_beq hbx]
          exact hg1
        rw [List.filter_append, hnil, hg, hk]
        simp
      · subst hk
        rw [List.filter_append, ← hflt (pyBaseName f) g0 hg0, hg]
        simp
    have hcov2 : ∀ f0 ∈ seen ++ [f], ∃ g, (pyBaseName f0, g) ∈
        insertGrouped (pyBaseName f) f acc := by
      intro f0 hf0
      rcases List.mem_append.mp hf0 with hm | hm
      · obtain ⟨g1, hg1⟩ := hcov f0 hm
        exact igPreserve (pyBaseName f) f acc (pyBaseName f0) g1 hg1
      · rcases List.mem_singleton.mp hm with rfl
        exact igSelf (pyBaseName f0) f0 acc
    obtain ⟨c1, c2, c3⟩ := ih (insertGrouped (pyBaseName f) f acc) (seen ++ [f]) hnd2 hflt2 hcov2
    refine ⟨c1, ?_, ?_⟩
    · intro k g hm
      have := c2 k g hm
      rwa [List.append_assoc, List.singleton_append] at this
    · intro f0 hf0
      apply c3
      rw [List.append_assoc, List.singleton_append]
      exact hf0

/- ===== C6 ===== -/

/-- C6: base-name derivation and grouping.  The base name computed by the
source (pattern on the stem first, then, for a ".rar" extension, on the
full name, else the stem) agrees with the spec rule for every path; every
candidate belongs to a group keyed by its base name; and each group of
groupByBase is exactly the encounter-ordered sublist of the candidates
having that base name. -/
theorem c6_base_name_and_grouping :
    (∀ path : String, pyBaseName path = specBaseName path) ∧
    (∀ (files : List String) (f : String), f ∈ files →
      ∃ g, (pyBaseName f, g) ∈ groupByBase files) ∧
    (∀ (files : List String) (k : String) (g : List String), (k, g) ∈ groupByBase files →
      g = files.filter (fun f => pyBaseName f == k)) := by
  refine ⟨base_name_eq_spec, ?_, ?_⟩
  · intro files f hf
    have h := (groupFold_invariant files [] [] (by simp) (by simp) (by simp)).2.2
    exact h f (by simpa using hf)
  · intro files k g hm
    have h := (groupFold_invariant files [] [] (by simp) (by simp) (by simp)).2.1
    have := h k g hm
    rwa [List.nil_append] at this

/-- C6 witness: the concrete set x.part1.rar, x.part2.rar, y.zip groups
into the two base names x and y, and the x group is exactly the filter of
the input by base name x. -/
theorem c6_base_name_and_grouping_witness :
    ["d/x.part1.rar", "d/x.part2.rar", "d/y.zip"].filter
        (fun f => pyBaseName f == "x") = ["d/x.part1.rar", "d/x.part2.rar"] :=
  (c6_base_name_and_grouping.2.2 ["d/x.part1.rar", "d/x.part2.rar", "d/y.zip"] "x"
    ["d/x.part1.rar", "d/x.part2.rar"] (by decide)).symm

/- ===== helper lemmas: the poller ===== -/

theorem memB_cons (x y : String) (p : List String) (h : memB x p = true) :
    memB x (y :: p) = true := by
  simp [memB, h]

theorem processBatch_mem (raises : String → Bool) : ∀ (batch : List Torrent) (p : List String)
    (x : String), memB x p = true → memB x (processBatch raises batch p).1 = true := by
  intro batch
  induction batch with
  | nil =>
    intro p x hx
    exact hx
  | cons t rest ih =>
    intro p x hx
    cases hr : raises t.hash with
    | true =>
      simp only [processBatch, hr, if_true]
      exact memB_cons x t.hash p hx
    | false =>
      simp only [processBatch, hr, Bool.false_eq_true, if_false]
      exact ih (t.hash :: p) x (memB_cons x t.hash p hx)

theorem processBatch_events (raises : String → Bool) : ∀ (batch : List Torrent)
    (p : List String) (e : PollEvent), e ∈ (processBatch raises batch p).2 →
    ∃ t ∈ batch, e = PollEvent.marked t.hash ∨ e = PollEvent.dispatched t.hash := by
  intro batch
  induction batch with
  | nil =>
    intro p e he
    cases he
  | cons t rest ih =>
    intro p e he
    cases hr : raises t.hash with
    | true =>
      simp only [processBatch, hr, if_true] at he
      rcases List.mem_cons.mp he with he1 | he2
      · exact ⟨t, List.mem_cons_self t rest, Or.inl he1⟩
      · rcases List.mem_cons.mp he2 with he3 | he4
        · exact ⟨t, List.mem_cons_self t rest, Or.inr he3⟩
        · cases he4
    | false =>
      simp only [processBatch, hr, Bool.false_eq_true, if_false] at he
      rcases List.mem_cons.mp he with he1 | he2
      · exact ⟨t, List.mem_cons_self t rest, Or.inl he1⟩
      · rcases List.mem_cons.mp he2 with he3 | he4
        · exact ⟨t, List.mem_cons_self t rest, Or.inr he3⟩
        · obtain ⟨u, hu, hor⟩ := ih (t.hash :: p) e he4
          exact ⟨u, List.mem_cons_of_mem t hu, hor⟩

theorem processBatch_no_dispatch (raises : String → Bool) (batch : List Torrent)
    (p : List String) (h : String) (hno : ∀ t ∈ batch, t.hash ≠ h) :
    PollEvent.dispatched h ∉ (processBatch raises batch p).2 := by
  intro hc
  obtain ⟨t, ht, hor⟩ := processBatch_events raises batch p (PollEvent.dispatched h) hc
  rcases hor with he | he
  · cases he
  · exact hno t ht (PollEvent.dispatched.injEq .. ▸ he).symm

theorem processBatch_once (raises : String → Bool) (h : String)
    (hraise : ∀ x, raises x = true → x = h) :
    ∀ (batch : List Torrent) (p : List String),
    (∃ t ∈ batch, t.hash = h) →
    ((batch.map Torrent.hash).count h ≤ 1) →
    ∃ l1 l2, (processBatch raises batch p).2 =
        l1 ++ PollEvent.marked h :: PollEvent.dispatched h :: l2 ∧
      PollEvent.dispatched h ∉ l1 ∧ PollEvent.dispatched h ∉ l2 ∧
      memB h (processBatch raises batch p).1 = true := by
  intro batch
  induction batch with
  | nil =>
    intro p hex hcnt
    obtain ⟨t, ht, _⟩ := hex
    cases ht
  | cons t rest ih =>
    intro p hex hcnt
    by_cases hth : t.hash = h
    · have hc0 : (rest.map Torrent.hash).count h = 0 := by
        rw [List.map_cons, List.count_cons] at hcnt
        simp [hth] at hcnt
        omega
      have hnr : ∀ u ∈ rest, u.hash ≠ h := by
        intro u hu he
        have hm : h ∈ rest.map Torrent.hash := by
          rw [← he]
          exact List.mem_map_of_mem Torrent.hash hu
        exact (List.count_eq_zero.mp hc0) hm
      cases hr : raises t.hash with
      | true =>
        have hr2 : raises h = true := by rw [← hth]; exact hr
        refine ⟨[], [], ?_, ?_, ?_, ?_⟩
        · simp only [processBatch, hth, hr2, if_true, List.nil_append]
        · exact List.not_mem_nil _
        · exact List.not_mem_nil _
        · simp only [processBatch, hth, hr2, if_true]
          simp [memB]
      | false =>
        have hr2 : raises h = false := by rw [← hth]; exact hr
        refine ⟨[], (processBatch raises rest (h :: p)).2, ?_, ?_, ?_, ?_⟩
        · simp only [processBatch, hth, hr2, Bool.false_eq_true, if_false, List.nil_append]
        · exact List.not_mem_nil _
        · exact processBatch_no_dispatch raises rest (h :: p) h hnr
        · simp only [processBatch, hth, hr2, Bool.false_eq_true, if_false]
          apply processBatch_mem
          simp [memB]
    · have hr : raises t.hash = false := by
        cases hrr : raises t.hash with
        | false => rfl
        | true => exact absurd (hraise t.hash hrr) hth
      have hex2 : ∃ u ∈ rest, u.hash = h := by
        obtain ⟨u, hu, hh⟩ := hex
        rcases List.mem_cons.mp hu with he | hm
        · rw [he] at hh
          exact absurd hh hth
        · exact ⟨u, hm, hh⟩
      have hcnt2 : (rest.map Torrent.hash).count h ≤ 1 := by
        rw [List.map_cons, List.count_cons] at hcnt
        omega
      obtain ⟨l1, l2, hev, hl1, hl2, hmem2⟩ := ih (t.hash :: p) hex2 hcnt2
      refine ⟨PollEvent.marked t.hash :: PollEvent.dispatched t.hash :: l1, l2, ?_, ?_, hl2, ?_⟩
      · simp only [processBatch, hr, Bool.false_eq_true, if_false, hev, List.cons_append]
      · intro hc
        rcases List.mem_cons.mp hc with he | hc2
        · cases he
        · rcases List.mem_cons.mp hc2 with he | hc3
          · exact hth (PollEvent.dispatched.injEq .. ▸ he).symm
          · exact hl1 hc3
      · simp only [processBatch, hr, Bool.false_eq_true, if_false]
        exact hmem2

theorem tick_absent (raises : String → Bool) (root : String) (ts : List Torrent)
    (p : List String) (h : String) (hp : memB h p = true) :
    PollEvent.dispatched h ∉ (tickPoll raises root ts p).2 ∧
    memB h (tickPoll raises root ts p).1 = true := by
  constructor
  · apply processBatch_no_dispatch
    intro t ht hth
    have hsel := (List.mem_filter.mp ht).2
    simp [selectsTorrent, hth, hp] at hsel
  · exact processBatch_mem raises (ts.filter (selectsTorrent p root)) p h hp

theorem tick_processes (raises : String → Bool) (root h : String)
    (hraise : ∀ x, raises x = true → x = h) (ts : List Torrent) (p : List String)
    (hp : memB h p = false)
    (hmem : ∃ t ∈ ts, t.hash = h ∧ t.progress = 1 ∧ strStartsWith t.contentPath root = true)
    (hdup : (ts.map Torrent.hash).count h ≤ 1) :
    ∃ l1 l2, (tickPoll raises root ts p).2 =
        l1 ++ PollEvent.marked h :: PollEvent.dispatched h :: l2 ∧
      PollEvent.dispatched h ∉ l1 ∧ PollEvent.dispatched h ∉ l2 ∧
      memB h (tickPoll raises root ts p).1 = true := by
  obtain ⟨t, ht, hth, hprog, hpath⟩ := hmem
  have hsel : selectsTorrent p root t = true := by
    simp [selectsTorrent, hprog, hpath, hth, hp]
  have htf : t ∈ ts.filter (selectsTorrent p root) := List.mem_filter.mpr ⟨ht, hsel⟩
  have hex : ∃ u ∈ ts.filter (selectsTorrent p root), u.hash = h := ⟨t, htf, hth⟩
  have hsub : ((ts.filter (selectsTorrent p root)).map Torrent.hash).Sublist
      (ts.map Torrent.hash) := (List.filter_sublist ts).map Torrent.hash
  have hcnt : ((ts.filter (selectsTorrent p root)).map Torrent.hash).count h ≤ 1 :=
    le_trans (hsub.count_le h) hdup
  exact processBatch_once raises h hraise (ts.filter (selectsTorrent p root)) p hex hcnt

theorem runPoller_absent (raises : String → Bool) (root h : String) :
    ∀ (ticks : List (List Torrent)) (p : List String), memB h p = true →
    PollEvent.dispatched h ∉ (runPoller raises root ticks p).2 := by
  intro ticks
  induction ticks with
  | nil =>
    intro p hp hc
    cases hc
  | cons ts rest ih =>
    intro p hp hc
    have heq : (runPoller raises root (ts :: rest) p).2 =
        (tickPoll raises root ts p).2 ++
          (runPoller raises root rest (tickPoll raises root ts p).1).2 := rfl
    rw [heq] at hc
    obtain ⟨habs, hmem2⟩ := tick_absent raises root ts p h hp
    rcases List.mem_append.mp hc with hc1 | hc2
    · exact habs hc1
    · exact ih (tickPoll raises root ts p).1 hmem2 hc2

/- ===== C1 ===== -/

/-- C1: at-most-once processing.  Over any run of the poller in which a
completed, in-scope identifier h occurs (once per tick) in every tick's
torrent list, h is not yet processed at the start, and no other
identifier's dispatch raises (the dispatch of h itself may raise), the
event trace of the whole run contains exactly one dispatch of h, and it
is immediately preceded by the marking of h as processed. -/
theorem c1_at_most_once (raises : String → Bool) (root h : String) (p0 : List String)
    (ticks : List (List Torrent))
    (hne : ticks ≠ [])
    (hmem : ∀ ts ∈ ticks, ∃ t ∈ ts, t.hash = h ∧ t.progress = 1 ∧
      strStartsWith t.contentPath root = true)
    (hdup : ∀ ts ∈ ticks, (ts.map Torrent.hash).count h ≤ 1)
    (hraise : ∀ x, raises x = true → x = h)
    (hinit : memB h p0 = false) :
    ∃ l1 l2, (runPoller raises root ticks p0).2 =
        l1 ++ PollEvent.marked h :: PollEvent.dispatched h :: l2 ∧
      PollEvent.dispatched h ∉ l1 ∧ PollEvent.dispatched h ∉ l2 := by
  cases ticks with
  | nil => exact absurd rfl hne
  | cons ts rest =>
    obtain ⟨l1, l2, hev, hl1, hl2, hmemafter⟩ := tick_processes raises root h hraise ts p0 hinit
      (hmem ts (List.mem_cons_self ts rest)) (hdup ts (List.mem_cons_self ts rest))
    have hrest : PollEvent.dispatched h ∉
        (runPoller raises root rest (tickPoll raises root ts p0).1).2 :=
      runPoller_absent raises root h rest (tickPoll raises root ts p0).1 hmemafter
    have heq : (runPoller raises root (ts :: rest) p0).2 =
        (tickPoll raises root ts p0).2 ++
          (runPoller raises root rest (tickPoll raises root ts p0).1).2 := rfl
    refine ⟨l1, l2 ++ (runPoller raises root rest (tickPoll raises root ts p0).1).2, ?_, hl1, ?_⟩
    · rw [heq, hev]
      simp [List.append_assoc]
    · intro hc
      rcases List.mem_append.mp hc with hc1 | hc2
      · exact hl2 hc1
      · exact hrest hc2

/-- C1 witness: a concrete two-tick run in which the same completed
in-scope torrent appears in both ticks dispatches it exactly once,
immediately after marking it processed. -/
theorem c1_at_most_once_witness :
    ∃ l1 l2, (runPoller (fun _ => false) "/d" [[⟨"h", 1, "/d/x"⟩], [⟨"h", 1, "/d/x"⟩]] []).2 =
        l1 ++ PollEvent.marked "h" :: PollEvent.dispatched "h" :: l2 ∧
      PollEvent.dispatched "h" ∉ l1 ∧ PollEvent.dispatched "h" ∉ l2 :=
  c1_at_most_once (fun _ => false) "/d" "h" [] [[⟨"h", 1, "/d/x"⟩], [⟨"h", 1, "/d/x"⟩]]
    (by decide) (by decide) (by decide) (fun x hx => Bool.noConfusion hx) (by decide)
